import Mathlib

/-!
Shallow embedding of the graphmodel note-indexing core (graphmodel/Model.py):
the Note record, the OrganizedNotesTable (a three-level insertion-ordered
dictionary time-position to channel to pitch to Note), the two-pass delta-time
annotation, the SoundEvent grouping, the MusicalTranscript builder and the
Frame window.  Python dictionaries are embedded as insertion-ordered
association lists; fallible dictionary reads become Option.  The delta pass
mutates Note objects in place in the source; here it is explicit state
passing over the table.
-/

/-- A musical note record, mirroring Note.__init__.  The two derived gap
fields default to 0 on construction and are signed (Python computes them as
differences that can be negative on an unsorted table), the remaining fields
are nonnegative integers.  The unused context list is omitted. -/
structure Note where
  timeline_tick : Nat
  wait_ticks : Nat
  duration_ticks : Nat
  previous_delta_ticks : Int
  next_delta_ticks : Int
  channel : Nat
  pitch : Nat
  velocity : Nat
  deriving DecidableEq

/-- Note construction from a decoded event: both gap fields start at 0. -/
def Note.make (timeline_tick wait_ticks duration_ticks channel pitch velocity : Nat) : Note :=
  { timeline_tick := timeline_tick
    wait_ticks := wait_ticks
    duration_ticks := duration_ticks
    previous_delta_ticks := 0
    next_delta_ticks := 0
    channel := channel
    pitch := pitch
    velocity := velocity }

/-- Note.encode: packed identity, duration shifted 20, channel 15, pitch 8,
velocity in the low bits, combined with bitwise or. -/
def Note.encode (n : Note) : Nat :=
  (n.duration_ticks <<< 20) ||| (n.channel <<< 15) ||| (n.pitch <<< 8) ||| n.velocity

/-- Note.__hash__ returns the packed encoding. -/
def noteHash (n : Note) : Nat := n.encode

/-- Note.__eq__ compares the packed encodings. -/
def noteEq (a b : Note) : Bool := a.encode == b.encode

/-- The module-level helper is_chord.  The file defines it twice; the second
definition, over a collection of notes, shadows the earlier one-argument
variant taking a sound event, so the effective binding tests nonemptiness of
the note collection. -/
def is_chord (notes : List Note) : Bool := notes.length > 0

/-- One cell level of the table: pitch to Note, insertion ordered. -/
abbrev PitchMap := List (Nat × Note)

/-- One row of the table: channel to pitch map, insertion ordered. -/
abbrev ChannelMap := List (Nat × PitchMap)

/-- The three-level table: time-position to channel to pitch to Note. -/
abbrev Table := List (Nat × ChannelMap)

/-- Exact dictionary read: first entry with the given key, if any. -/
def dictLookup {α : Type} (m : List (Nat × α)) (k : Nat) : Option α :=
  (m.find? (fun kv => kv.1 == k)).map (fun kv => kv.2)

/-- Dictionary write: overwrite in place if the key exists, else append. -/
def dictInsert {α : Type} (m : List (Nat × α)) (k : Nat) (v : α) : List (Nat × α) :=
  if m.any (fun kv => kv.1 == k) then
    m.map (fun kv => if kv.1 == k then (kv.1, v) else kv)
  else m ++ [(k, v)]

/-- In-place update of the value at an existing key. -/
def updAssoc {α : Type} (m : List (Nat × α)) (k : Nat) (f : α → α) : List (Nat × α) :=
  m.map (fun kv => if kv.1 == k then (kv.1, f kv.2) else kv)

/-- Fallible in-place update: a dictionary read of the key followed by a
mutation of the value found there; none when the key is absent. -/
def updAssocAt {α : Type} (m : List (Nat × α)) (k : Nat) (f : α → α) :
    Option (List (Nat × α)) :=
  if m.any (fun kv => kv.1 == k) then some (updAssoc m k f) else none

/-- OrganizedNotesTable state: the nested table, the channel list and the
channel bitmask used by has_channel. -/
structure OrganizedNotesTable where
  table : Table
  channels : List Nat
  channel_coding : Nat

/-- The empty table, as built by OrganizedNotesTable.__init__. -/
def OrganizedNotesTable.empty : OrganizedNotesTable :=
  { table := [], channels := [], channel_coding := 0 }

/-- has_channel: bitmask membership test (Python truthiness of the masked
integer). -/
def OrganizedNotesTable.has_channel (s : OrganizedNotesTable) (channel : Nat) : Bool :=
  s.channel_coding &&& (1 <<< channel) != 0

/-- add_channel: append to the channel list and set the bit. -/
def OrganizedNotesTable.add_channel (s : OrganizedNotesTable) (channel : Nat) :
    OrganizedNotesTable :=
  { s with channels := s.channels ++ [channel],
           channel_coding := s.channel_coding ||| (1 <<< channel) }

/-- add_channel_if_not_exists. -/
def OrganizedNotesTable.add_channel_if_not_exists (s : OrganizedNotesTable) (channel : Nat) :
    OrganizedNotesTable :=
  if s.has_channel channel then s else s.add_channel channel

/-- OrganizedNotesTable.add: register the channel, create the missing
intermediate dictionaries, then store the note at its
(timeline_tick, channel, pitch) cell, overwriting any previous record. -/
def OrganizedNotesTable.add (s : OrganizedNotesTable) (note : Note) : OrganizedNotesTable :=
  let s1 := s.add_channel_if_not_exists note.channel
  let row := (dictLookup s1.table note.timeline_tick).getD []
  let pm := (dictLookup row note.channel).getD []
  { s1 with table := (dictInsert s1.table note.timeline_tick
      (dictInsert row note.channel (dictInsert pm note.pitch note))) }

/-- get_note: three chained exact dictionary reads, failing on the first
missing level. -/
def OrganizedNotesTable.get_note (s : OrganizedNotesTable) (tick channel pitch : Nat) :
    Option Note :=
  match dictLookup s.table tick with
  | none => none
  | some row =>
    match dictLookup row channel with
    | none => none
    | some pm => dictLookup pm pitch

/-- sort on the raw table: stable reordering of the top-level entries by
ascending time-position key. -/
def sortTable (t : Table) : Table :=
  t.insertionSort (fun a b => a.1 ≤ b.1)

/-- OrganizedNotesTable.sort. -/
def OrganizedNotesTable.sort (s : OrganizedNotesTable) : OrganizedNotesTable :=
  { s with table := sortTable s.table }

/-- first_tick: the first key in iteration order, if the table is nonempty
(the Python loop returns the first key and falls through to None on an empty
table). -/
def first_tick (t : Table) : Option Nat :=
  t.head?.map (fun kv => kv.1)

/-- Mutation of every note stored in a channel row, keys untouched. -/
def mapRowNotes (g : Note → Note) (row : ChannelMap) : ChannelMap :=
  row.map (fun ckv => (ckv.1, ckv.2.map (fun pkv => (pkv.1, g pkv.2))))

/-- First inner pass of update_delta_times: every note of the row gets
previous_delta_ticks set to timeline_tick minus the running previous tick. -/
def setPrevRow (row : ChannelMap) (previous_tick : Nat) : ChannelMap :=
  mapRowNotes (fun n =>
    { n with previous_delta_ticks := (n.timeline_tick : Int) - (previous_tick : Int) }) row

/-- Second inner pass of update_delta_times: every note of the row gets
next_delta_ticks set to the current tick minus its timeline_tick. -/
def setNextRow (row : ChannelMap) (tick : Nat) : ChannelMap :=
  mapRowNotes (fun n =>
    { n with next_delta_ticks := (tick : Int) - (n.timeline_tick : Int) }) row

/-- The body of the update_delta_times loop over the list of time-position
keys: mutate the notes of the current row, then the notes of the row at the
running previous tick (a fallible dictionary read), then advance the running
previous tick. -/
def deltaLoop : Table → List Nat → Nat → Option Table
  | t, [], _ => some t
  | t, tick :: rest, previous_tick =>
    match updAssocAt t tick (fun row => setPrevRow row previous_tick) with
    | none => none
    | some t1 =>
      match updAssocAt t1 previous_tick (fun row => setNextRow row tick) with
      | none => none
      | some t2 => deltaLoop t2 rest tick

/-- update_delta_times: initialize the running previous tick to the first
key, then walk the keys in table order.  On an empty table the loop body
never runs. -/
def update_delta_times (t : Table) : Option Table :=
  match first_tick t with
  | none => some t
  | some pt => deltaLoop t (t.map (fun kv => kv.1)) pt

/-- A group of notes sharing one time-position and channel; a chord when
there is more than one. -/
structure SoundEvent where
  notes : List Note
  deriving DecidableEq

/-- SoundEvent.__init__: store the given notes sorted ascending by
next_delta_ticks (a stable sort, as in the source). -/
def SoundEvent.make (notes : List Note) : SoundEvent :=
  { notes := notes.insertionSort (fun a b => a.next_delta_ticks ≤ b.next_delta_ticks) }

/-- SoundEvent.first: the leading stored note; fails on an empty group. -/
def SoundEvent.first (e : SoundEvent) : Option Note := e.notes.head?

/-- SoundEvent.shortest_note: also the leading stored note. -/
def SoundEvent.shortest_note (e : SoundEvent) : Option Note := e.notes.head?

/-- The notes of one (time-position, channel) bucket, in pitch-map order. -/
def bucketNotes (pm : PitchMap) : List Note := pm.map (fun kv => kv.2)

/-- The per-channel tracks of a transcript: channel to ordered sound-event
list. -/
abbrev Tracks := List (Nat × List SoundEvent)

/-- Append a sound event to the track of a channel; a fallible dictionary
read of the channel entry (the source indexes tracks by the channel). -/
def appendTrack (tracks : Tracks) (channel : Nat) (e : SoundEvent) : Option Tracks :=
  updAssocAt tracks channel (fun es => es ++ [e])

/-- Inner loop of MusicalTranscript.__build__ over one row: build a
SoundEvent from each channel bucket and append it to that channel track. -/
def buildRow : ChannelMap → Tracks → Option Tracks
  | [], tracks => some tracks
  | ckv :: rest, tracks =>
    match appendTrack tracks ckv.1 (SoundEvent.make (bucketNotes ckv.2)) with
    | none => none
    | some tracks1 => buildRow rest tracks1

/-- Outer loop of MusicalTranscript.__build__ over the table rows in table
order. -/
def buildLoop : Table → Tracks → Option Tracks
  | [], tracks => some tracks
  | kv :: rest, tracks =>
    match buildRow kv.2 tracks with
    | none => none
    | some tracks1 => buildLoop rest tracks1

/-- MusicalTranscript.__build__: one empty track per channel of the channel
list, then the double loop over the table. -/
def buildTracks (channels : List Nat) (t : Table) : Option Tracks :=
  buildLoop t (channels.map (fun c => (c, ([] : List SoundEvent))))

/-- The transcript wrapper object. -/
structure MusicalTranscript where
  tracks : Tracks

/-- MusicalTranscript.__init__ on an organized table. -/
def MusicalTranscript.build (s : OrganizedNotesTable) : Option MusicalTranscript :=
  (buildTracks s.channels s.table).map MusicalTranscript.mk

/-- Frame: a target capacity and the sound events appended so far. -/
structure Frame where
  max_size : Nat
  sound_events : List SoundEvent
  deriving DecidableEq

/-- Frame.__init__ with no initial events. -/
def Frame.new (max_size : Nat) : Frame :=
  { max_size := max_size, sound_events := [] }

/-- Frame.add: unconditional append, no bound check. -/
def Frame.add (f : Frame) (e : SoundEvent) : Frame :=
  { f with sound_events := f.sound_events ++ [e] }

/-- Frame.__sizeof__ override: the number of contained events. -/
def Frame.size (f : Frame) : Nat := f.sound_events.length

/-- Frame.is_full: exact equality of current size and capacity. -/
def Frame.is_full (f : Frame) : Bool := f.size == f.max_size

/-- All notes of a channel row satisfy a predicate. -/
def RowAll (row : ChannelMap) (P : Note → Prop) : Prop :=
  ∀ ckv ∈ row, ∀ pkv ∈ ckv.2, P pkv.2

/-! General lemmas about the association-list dictionaries. -/

theorem dictLookup_cons {α : Type} (k1 : Nat) (v1 : α) (rest : List (Nat × α)) (k : Nat) :
    dictLookup ((k1, v1) :: rest) k = if k1 = k then some v1 else dictLookup rest k := by
  unfold dictLookup
  rw [List.find?_cons]
  by_cases h : k1 = k
  · simp [h]
  · have hb : (k1 == k) = false := by simp [h]
    simp [hb, h]

theorem updAssoc_cons {α : Type} (k1 : Nat) (v1 : α) (rest : List (Nat × α)) (k : Nat)
    (f : α → α) :
    updAssoc ((k1, v1) :: rest) k f =
      (if k1 = k then (k1, f v1) else (k1, v1)) :: updAssoc rest k f := by
  unfold updAssoc
  simp only [List.map_cons]
  by_cases h : k1 = k <;> simp [h]

theorem dictLookup_eq_none_iff {α : Type} (m : List (Nat × α)) (k : Nat) :
    dictLookup m k = none ↔ k ∉ m.map Prod.fst := by
  induction m with
  | nil => simp [dictLookup]
  | cons kv rest ih =>
    obtain ⟨k1, v1⟩ := kv
    by_cases h : k1 = k
    · simp [dictLookup_cons, h]
    · rw [dictLookup_cons, if_neg h]
      simp only [List.map_cons, List.mem_cons, ih]
      constructor
      · intro hk hc
        rcases hc with hc | hc
        · exact h hc.symm
        · exact hk hc
      · intro hk hc
        exact hk (Or.inr hc)

theorem dictLookup_isSome_iff {α : Type} (m : List (Nat × α)) (k : Nat) :
    (dictLookup m k).isSome = true ↔ k ∈ m.map Prod.fst := by
  rcases h : dictLookup m k with _ | v
  · simpa using (dictLookup_eq_none_iff m k).mp h
  · simp only [Option.isSome_some, true_iff]
    by_contra hk
    rw [(dictLookup_eq_none_iff m k).mpr hk] at h
    cases h

theorem dictLookup_mem {α : Type} {m : List (Nat × α)} {k : Nat} {v : α}
    (h : dictLookup m k = some v) : (k, v) ∈ m := by
  induction m with
  | nil => simp [dictLookup] at h
  | cons kv rest ih =>
    obtain ⟨k1, v1⟩ := kv
    by_cases hk : k1 = k
    · rw [dictLookup_cons, if_pos hk] at h
      rw [← hk, ← Option.some_inj.mp h]
      exact List.mem_cons_self _ _
    · rw [dictLookup_cons, if_neg hk] at h
      exact List.mem_cons_of_mem _ (ih h)

theorem updAssoc_keys {α : Type} (m : List (Nat × α)) (k : Nat) (f : α → α) :
    (updAssoc m k f).map Prod.fst = m.map Prod.fst := by
  induction m with
  | nil => rfl
  | cons kv rest ih =>
    obtain ⟨k1, v1⟩ := kv
    rw [updAssoc_cons]
    by_cases h : k1 = k <;> simp [h, ih]

theorem dictLookup_updAssoc_self {α : Type} (m : List (Nat × α)) (k : Nat) (f : α → α) :
    dictLookup (updAssoc m k f) k = (dictLookup m k).map f := by
  induction m with
  | nil => rfl
  | cons kv rest ih =>
    obtain ⟨k1, v1⟩ := kv
    rw [updAssoc_cons]
    by_cases h : k1 = k
    · rw [if_pos h, dictLookup_cons, dictLookup_cons, if_pos h, if_pos h]
      rfl
    · rw [if_neg h, dictLookup_cons, dictLookup_cons, if_neg h, if_neg h]
      exact ih

theorem dictLookup_updAssoc_ne {α : Type} (m : List (Nat × α)) (k k2 : Nat) (f : α → α)
    (hne : k2 ≠ k) : dictLookup (updAssoc m k f) k2 = dictLookup m k2 := by
  induction m with
  | nil => rfl
  | cons kv rest ih =>
    obtain ⟨k1, v1⟩ := kv
    rw [updAssoc_cons]
    by_cases h : k1 = k
    · have h2 : ¬(k1 = k2) := fun hc => hne (by rw [← hc, h])
      rw [if_pos h, dictLookup_cons, dictLookup_cons, if_neg h2, if_neg h2]
      exact ih
    · by_cases h2 : k1 = k2
      · rw [if_neg h, dictLookup_cons, dictLookup_cons, if_pos h2, if_pos h2]
      · rw [if_neg h, dictLookup_cons, dictLookup_cons, if_neg h2, if_neg h2]
        exact ih

theorem updAssocAt_eq_some {α : Type} (m : List (Nat × α)) (k : Nat) (f : α → α)
    (h : k ∈ m.map Prod.fst) : updAssocAt m k f = some (updAssoc m k f) := by
  have hany : m.any (fun kv => kv.1 == k) = true := by
    simp only [List.mem_map] at h
    obtain ⟨kv, hkv, hk⟩ := h
    exact List.any_eq_true.mpr ⟨kv, hkv, by simp [hk]⟩
  simp [updAssocAt, hany]

/-! Arithmetic of the packed note encoding. -/

theorem two_pow_mul_lor_eq_add (k : Nat) :
    ∀ a b : Nat, b < 2 ^ k → ((2 ^ k * a) ||| b) = 2 ^ k * a + b := by
  induction k with
  | zero =>
    intro a b hb
    have hb0 : b = 0 := by omega
    subst hb0
    simp
  | succ k ih =>
    intro a b hb
    have hbit : Nat.bit (Nat.bodd b) (Nat.div2 b) = b := Nat.bit_decomp b
    have h2 : 2 ^ (k + 1) * a = Nat.bit false (2 ^ k * a) := by
      simp only [Nat.bit_val, Bool.toNat_false, Nat.add_zero]
      ring
    have hdivlt : Nat.div2 b < 2 ^ k := by
      rw [Nat.div2_val]
      have hpow : 2 ^ (k + 1) = 2 * 2 ^ k := by ring
      omega
    rw [← hbit, h2, Nat.lor_bit, ih a (Nat.div2 b) hdivlt]
    simp only [Bool.false_or, Nat.bit_val, Bool.toNat_false]
    ring

theorem encode_eq_sum (n : Note) (hc : n.channel < 32) (hp : n.pitch < 128)
    (hv : n.velocity < 256) :
    n.encode = n.duration_ticks * 2 ^ 20 + n.channel * 2 ^ 15 + n.pitch * 2 ^ 8 + n.velocity := by
  have e20 : (2 : Nat) ^ 20 = 1048576 := by norm_num
  have e15 : (2 : Nat) ^ 15 = 32768 := by norm_num
  have e8 : (2 : Nat) ^ 8 = 256 := by norm_num
  unfold Note.encode
  rw [Nat.shiftLeft_eq, Nat.shiftLeft_eq, Nat.shiftLeft_eq]
  have s1 : n.duration_ticks * 2 ^ 20 ||| n.channel * 2 ^ 15
      = n.duration_ticks * 2 ^ 20 + n.channel * 2 ^ 15 := by
    rw [Nat.mul_comm n.duration_ticks (2 ^ 20)]
    exact two_pow_mul_lor_eq_add 20 _ _ (by omega)
  rw [s1]
  have r2 : n.duration_ticks * 2 ^ 20 + n.channel * 2 ^ 15
      = 2 ^ 15 * (n.duration_ticks * 2 ^ 5 + n.channel) := by ring
  have s2 : n.duration_ticks * 2 ^ 20 + n.channel * 2 ^ 15 ||| n.pitch * 2 ^ 8
      = n.duration_ticks * 2 ^ 20 + n.channel * 2 ^ 15 + n.pitch * 2 ^ 8 := by
    rw [r2]
    exact two_pow_mul_lor_eq_add 15 _ _ (by omega)
  rw [s2]
  have r3 : n.duration_ticks * 2 ^ 20 + n.channel * 2 ^ 15 + n.pitch * 2 ^ 8
      = 2 ^ 8 * (n.duration_ticks * 2 ^ 12 + n.channel * 2 ^ 7 + n.pitch) := by ring
  have s3 : n.duration_ticks * 2 ^ 20 + n.channel * 2 ^ 15 + n.pitch * 2 ^ 8 ||| n.velocity
      = n.duration_ticks * 2 ^ 20 + n.channel * 2 ^ 15 + n.pitch * 2 ^ 8 + n.velocity := by
    rw [r3]
    exact two_pow_mul_lor_eq_add 8 _ _ (by omega)
  rw [s3]

/-- Claim C5: for a NoteRecord whose fields lie in the stated ranges
(duration 12 bits, channel 0 to 31, pitch 0 to 127, velocity 0 to 255) the
identity encoding is the 32-bit packed value laid out most-significant
first as duration, channel, pitch, velocity: it equals
duration * 2 to the 20 + channel * 2 to the 15 + pitch * 2 to the 8 +
velocity, and lies below 2 to the 32. -/
theorem encode_bit_layout (n : Note) (hd : n.duration_ticks < 4096) (hc : n.channel < 32)
    (hp : n.pitch < 128) (hv : n.velocity < 256) :
    n.encode = n.duration_ticks * 2 ^ 20 + n.channel * 2 ^ 15 + n.pitch * 2 ^ 8 + n.velocity ∧
    n.encode < 2 ^ 32 := by
  have h := encode_eq_sum n hc hp hv
  refine ⟨h, ?_⟩
  rw [h]
  have e20 : (2 : Nat) ^ 20 = 1048576 := by norm_num
  have e15 : (2 : Nat) ^ 15 = 32768 := by norm_num
  have e8 : (2 : Nat) ^ 8 = 256 := by norm_num
  have e32 : (2 : Nat) ^ 32 = 4294967296 := by norm_num
  omega

/-- Witness for C5 at a concrete in-range note. -/
theorem encode_bit_layout_witness :
    (Note.make 0 0 4 0 60 100).encode
        = 4 * 2 ^ 20 + 0 * 2 ^ 15 + 60 * 2 ^ 8 + 100 ∧
    (Note.make 0 0 4 0 60 100).encode < 2 ^ 32 :=
  encode_bit_layout (Note.make 0 0 4 0 60 100) (by decide) (by decide) (by decide) (by decide)

/-- Claim C2: two NoteRecords (fields in the data-model ranges: channel
0 to 31, pitch 0 to 127, velocity 0 to 255) are equal under the embedded
Note.__eq__ and hash identically under Note.__hash__ exactly when they
agree on all four of duration_ticks, channel, pitch and velocity; the
time position, wait and gap fields play no part. -/
theorem note_identity_law (A B : Note)
    (hcA : A.channel < 32) (hpA : A.pitch < 128) (hvA : A.velocity < 256)
    (hcB : B.channel < 32) (hpB : B.pitch < 128) (hvB : B.velocity < 256) :
    (noteEq A B = true ∧ noteHash A = noteHash B) ↔
      (A.duration_ticks = B.duration_ticks ∧ A.channel = B.channel ∧
       A.pitch = B.pitch ∧ A.velocity = B.velocity) := by
  have hA := encode_eq_sum A hcA hpA hvA
  have hB := encode_eq_sum B hcB hpB hvB
  have e20 : (2 : Nat) ^ 20 = 1048576 := by norm_num
  have e15 : (2 : Nat) ^ 15 = 32768 := by norm_num
  have e8 : (2 : Nat) ^ 8 = 256 := by norm_num
  unfold noteEq noteHash
  rw [beq_iff_eq]
  constructor
  · rintro ⟨h, -⟩
    rw [hA, hB] at h
    refine ⟨by omega, by omega, by omega, by omega⟩
  · rintro ⟨h1, h2, h3, h4⟩
    have henc : A.encode = B.encode := by rw [hA, hB, h1, h2, h3, h4]
    exact ⟨henc, henc⟩

/-- Witness for C2: two notes agreeing on the four identity fields but
differing in time position, wait and both gap fields compare equal and
hash identically. -/
theorem note_identity_law_witness :
    (noteEq ⟨0, 0, 4, 0, 0, 1, 60, 100⟩ ⟨7, 3, 4, 2, 5, 1, 60, 100⟩ = true ∧
     noteHash ⟨0, 0, 4, 0, 0, 1, 60, 100⟩ = noteHash ⟨7, 3, 4, 2, 5, 1, 60, 100⟩) :=
  (note_identity_law ⟨0, 0, 4, 0, 0, 1, 60, 100⟩ ⟨7, 3, 4, 2, 5, 1, 60, 100⟩
      (by decide) (by decide) (by decide) (by decide) (by decide) (by decide)).mpr
    ⟨rfl, rfl, rfl, rfl⟩

/-- Claim C10: the effective module-level is_chord returns true exactly on
nonempty note collections; in particular a single-note group counts as a
chord.  The earlier one-argument variant is shadowed by this binding. -/
theorem is_chord_iff_nonempty :
    (∀ notes : List Note, is_chord notes = true ↔ notes ≠ []) ∧
    (∀ n : Note, is_chord [n] = true) := by
  constructor
  · intro notes
    cases notes <;> simp [is_chord]
  · intro n
    simp [is_chord]

/-- Claim C7: Frame.is_full is true exactly when the current length equals
max_size; with capacity 3 it is false after 0, 1 or 2 adds, true after 3,
and a fourth add still succeeds, making the length 4 and is_full false
again. -/
theorem frame_is_full_iff :
    (∀ f : Frame, f.is_full = true ↔ f.sound_events.length = f.max_size) ∧
    (∀ e1 e2 e3 e4 : SoundEvent,
      (Frame.new 3).is_full = false ∧
      ((Frame.new 3).add e1).is_full = false ∧
      (((Frame.new 3).add e1).add e2).is_full = false ∧
      ((((Frame.new 3).add e1).add e2).add e3).is_full = true ∧
      (((((Frame.new 3).add e1).add e2).add e3).add e4).sound_events.length = 4 ∧
      (((((Frame.new 3).add e1).add e2).add e3).add e4).is_full = false) := by
  constructor
  · intro f
    simp [Frame.is_full, Frame.size]
  · intro e1 e2 e3 e4
    refine ⟨rfl, rfl, rfl, rfl, ?_, ?_⟩ <;> simp [Frame.new, Frame.add, Frame.is_full, Frame.size]

/-- Claim C4: sort reorders the top-level keys ascending by numeric
time-position (strictly, as dictionary keys are distinct), is idempotent,
leaves an already key-sorted table unchanged, and is a no-op on the empty
table. -/
theorem sortTable_ascending_idempotent (t : Table) :
    sortTable ([] : Table) = [] ∧
    sortTable (sortTable t) = sortTable t ∧
    ((t.map Prod.fst).Nodup →
      List.Pairwise (fun a b : Nat => a < b) ((sortTable t).map Prod.fst)) ∧
    (List.Pairwise (fun a b : Nat => a ≤ b) (t.map Prod.fst) → sortTable t = t) := by
  haveI hTot : IsTotal (Nat × ChannelMap) (fun a b => a.1 ≤ b.1) :=
    ⟨fun a b => Nat.le_total a.1 b.1⟩
  haveI hTrans : IsTrans (Nat × ChannelMap) (fun a b => a.1 ≤ b.1) :=
    ⟨fun a b c hab hbc => le_trans hab hbc⟩
  refine ⟨rfl, ?_, ?_, ?_⟩
  · exact List.Sorted.insertionSort_eq (List.sorted_insertionSort _ t)
  · intro hnd
    have hs : List.Pairwise (fun a b : Nat × ChannelMap => a.1 ≤ b.1) (sortTable t) :=
      List.sorted_insertionSort _ t
    have hperm : ((sortTable t).map Prod.fst).Perm (t.map Prod.fst) :=
      (List.perm_insertionSort _ t).map Prod.fst
    have hnd2 : ((sortTable t).map Prod.fst).Nodup := hperm.nodup_iff.mpr hnd
    have hle : List.Pairwise (fun a b : Nat => a ≤ b) ((sortTable t).map Prod.fst) :=
      (List.pairwise_map).mpr hs
    exact (hle.and hnd2).imp (fun h => lt_of_le_of_ne h.1 h.2)
  · intro hsorted
    exact List.Sorted.insertionSort_eq ((List.pairwise_map).mp hsorted)

/-- Witness for C4 on a concrete table with distinct, already ascending
keys. -/
theorem sortTable_ascending_idempotent_witness :
    List.Pairwise (fun a b : Nat => a < b)
      ((sortTable [(1, ([] : ChannelMap)), (5, [])]).map Prod.fst) ∧
    sortTable [(1, ([] : ChannelMap)), (5, [])] = [(1, []), (5, [])] :=
  ⟨(sortTable_ascending_idempotent [(1, []), (5, [])]).2.2.1 (by decide),
   (sortTable_ascending_idempotent [(1, []), (5, [])]).2.2.2 (by decide)⟩

/-- Claim C8: the SoundEvent built from a nonempty note list keeps exactly
the given notes, stores them sorted ascending by next gap, and first and
shortest_note return a member with minimal next gap. -/
theorem sound_event_sorted_min (notes : List Note) (hne : notes ≠ []) :
    (SoundEvent.make notes).notes.Perm notes ∧
    List.Pairwise (fun a b : Note => a.next_delta_ticks ≤ b.next_delta_ticks)
      (SoundEvent.make notes).notes ∧
    (SoundEvent.make notes).shortest_note = (SoundEvent.make notes).first ∧
    ∃ n, (SoundEvent.make notes).first = some n ∧ n ∈ notes ∧
      ∀ m ∈ notes, n.next_delta_ticks ≤ m.next_delta_ticks := by
  haveI hTot : IsTotal Note (fun a b => a.next_delta_ticks ≤ b.next_delta_ticks) :=
    ⟨fun a b => Int.le_total _ _⟩
  haveI hTrans : IsTrans Note (fun a b => a.next_delta_ticks ≤ b.next_delta_ticks) :=
    ⟨fun a b c hab hbc => le_trans hab hbc⟩
  have hperm : (SoundEvent.make notes).notes.Perm notes := List.perm_insertionSort _ notes
  have hsorted : List.Pairwise (fun a b : Note => a.next_delta_ticks ≤ b.next_delta_ticks)
      (SoundEvent.make notes).notes := List.sorted_insertionSort _ notes
  refine ⟨hperm, hsorted, rfl, ?_⟩
  rcases hl : (SoundEvent.make notes).notes with _ | ⟨n, tl⟩
  · exfalso
    rw [hl] at hperm
    exact hne hperm.symm.eq_nil
  · refine ⟨n, by simp [SoundEvent.first, hl], ?_, ?_⟩
    · have hmem : n ∈ (SoundEvent.make notes).notes := by
        rw [hl]
        exact List.mem_cons_self _ _
      exact hperm.mem_iff.mp hmem
    · intro m hm
      have hm2 : m ∈ (SoundEvent.make notes).notes := hperm.mem_iff.mpr hm
      rw [hl] at hm2 hsorted
      rcases List.mem_cons.mp hm2 with hm3 | hm3
      · rw [hm3]
      · exact (List.pairwise_cons.mp hsorted).1 m hm3

/-- Witness for C8 on a concrete two-note list whose second note has the
smaller next gap. -/
theorem sound_event_sorted_min_witness :
    (SoundEvent.make [⟨0, 0, 4, 0, 5, 0, 60, 100⟩, ⟨0, 0, 3, 0, 2, 0, 64, 90⟩]).notes.Perm
      [⟨0, 0, 4, 0, 5, 0, 60, 100⟩, ⟨0, 0, 3, 0, 2, 0, 64, 90⟩] ∧
    List.Pairwise (fun a b : Note => a.next_delta_ticks ≤ b.next_delta_ticks)
      (SoundEvent.make [⟨0, 0, 4, 0, 5, 0, 60, 100⟩, ⟨0, 0, 3, 0, 2, 0, 64, 90⟩]).notes ∧
    (SoundEvent.make [⟨0, 0, 4, 0, 5, 0, 60, 100⟩, ⟨0, 0, 3, 0, 2, 0, 64, 90⟩]).shortest_note
      = (SoundEvent.make [⟨0, 0, 4, 0, 5, 0, 60, 100⟩, ⟨0, 0, 3, 0, 2, 0, 64, 90⟩]).first ∧
    ∃ n, (SoundEvent.make [⟨0, 0, 4, 0, 5, 0, 60, 100⟩, ⟨0, 0, 3, 0, 2, 0, 64, 90⟩]).first
        = some n ∧
      n ∈ [⟨0, 0, 4, 0, 5, 0, 60, 100⟩, ⟨0, 0, 3, 0, 2, 0, 64, 90⟩] ∧
      ∀ m ∈ [(⟨0, 0, 4, 0, 5, 0, 60, 100⟩ : Note), ⟨0, 0, 3, 0, 2, 0, 64, 90⟩],
        n.next_delta_ticks ≤ m.next_delta_ticks :=
  sound_event_sorted_min [⟨0, 0, 4, 0, 5, 0, 60, 100⟩, ⟨0, 0, 3, 0, 2, 0, 64, 90⟩] (by decide)

/-- Claim C6: get_note fails (returns no note) exactly when some level of
the (time-position, channel, pitch) triple is absent, returns the stored
record when all three levels are present, and first_tick signals failure on
the empty table (and only there) instead of producing a numeric default, so
absence is distinguishable from zero. -/
theorem get_note_fail_fast (s : OrganizedNotesTable) (tick channel pitch : Nat) :
    (s.get_note tick channel pitch = none ↔
      ¬ ∃ row pm, dictLookup s.table tick = some row ∧ dictLookup row channel = some pm ∧
        pitch ∈ pm.map Prod.fst) ∧
    (∀ row pm note, dictLookup s.table tick = some row → dictLookup row channel = some pm →
      dictLookup pm pitch = some note → s.get_note tick channel pitch = some note) ∧
    (first_tick s.table = none ↔ s.table = []) ∧
    (∀ k row, s.table.head? = some (k, row) → first_tick s.table = some k) := by
  refine ⟨?_, ?_, ?_, ?_⟩
  · unfold OrganizedNotesTable.get_note
    rcases h1 : dictLookup s.table tick with _ | row
    · simp [h1]
    · rcases h2 : dictLookup row channel with _ | pm
      · simp [h1, h2]
      · simp [h1, h2, dictLookup_eq_none_iff]
  · intro row pm note h1 h2 h3
    simp [OrganizedNotesTable.get_note, h1, h2, h3]
  · rcases htab : s.table with _ | ⟨kv, rest⟩ <;> simp [first_tick]
  · intro k row h
    simp [first_tick, h]

/-- Witness for C6: a concrete one-note table where the exact triple is
found, a missing pitch is reported as absent, and the empty table fails
first_tick. -/
theorem get_note_fail_fast_witness :
    OrganizedNotesTable.get_note
        ⟨[(0, [(1, [(60, ⟨0, 0, 4, 0, 0, 1, 60, 100⟩)])])], [1], 2⟩ 0 1 60
      = some ⟨0, 0, 4, 0, 0, 1, 60, 100⟩ ∧
    (¬ ∃ row pm,
        dictLookup (⟨[(0, [(1, [(60, ⟨0, 0, 4, 0, 0, 1, 60, 100⟩)])])], [1], 2⟩ :
          OrganizedNotesTable).table 0 = some row ∧
        dictLookup row 1 = some pm ∧ (61 : Nat) ∈ pm.map Prod.fst) ∧
    first_tick ([] : Table) = none :=
  ⟨(get_note_fail_fast ⟨[(0, [(1, [(60, ⟨0, 0, 4, 0, 0, 1, 60, 100⟩)])])], [1], 2⟩ 0 1 60).2.1
      [(1, [(60, ⟨0, 0, 4, 0, 0, 1, 60, 100⟩)])] [(60, ⟨0, 0, 4, 0, 0, 1, 60, 100⟩)]
      ⟨0, 0, 4, 0, 0, 1, 60, 100⟩ (by decide) (by decide) (by decide),
   (get_note_fail_fast ⟨[(0, [(1, [(60, ⟨0, 0, 4, 0, 0, 1, 60, 100⟩)])])], [1], 2⟩ 0 1 61).1.mp
      (by decide),
   ((get_note_fail_fast OrganizedNotesTable.empty 0 0 0).2.2.1).mpr rfl⟩

/-! Characterization of the delta-time loop. -/

theorem setNextRow_setNextRow (row : ChannelMap) (a b : Nat) :
    setNextRow (setNextRow row a) b = setNextRow row b := by
  unfold setNextRow mapRowNotes
  simp only [List.map_map]
  apply List.map_congr_left
  intro ckv _
  simp only [Function.comp_apply]
  congr 1
  rw [List.map_map]
  apply List.map_congr_left
  intro pkv _
  rfl

theorem deltaLoop_char (ks : List Nat) :
    ∀ (t : Table) (pt : Nat),
      pt ∈ t.map Prod.fst → (∀ k ∈ ks, k ∈ t.map Prod.fst) → ks.Nodup → pt ∉ ks →
      ∃ tf, deltaLoop t ks pt = some tf ∧
        tf.map Prod.fst = t.map Prod.fst ∧
        (∀ k, k ≠ pt → k ∉ ks → dictLookup tf k = dictLookup t k) ∧
        (ks = [] → dictLookup tf pt = dictLookup t pt) ∧
        (∀ k1, ks.head? = some k1 →
          dictLookup tf pt = (dictLookup t pt).map (fun row => setNextRow row k1)) ∧
        (∀ i k, ks[i]? = some k → ks[i + 1]? = none →
          dictLookup tf k = (dictLookup t k).map (fun row =>
            setPrevRow row (if i = 0 then pt else (ks[i - 1]?).getD 0))) ∧
        (∀ i k kn, ks[i]? = some k → ks[i + 1]? = some kn →
          dictLookup tf k = (dictLookup t k).map (fun row =>
            setNextRow (setPrevRow row (if i = 0 then pt else (ks[i - 1]?).getD 0)) kn)) := by
  induction ks with
  | nil =>
    intro t pt hpt _ _ _
    refine ⟨t, rfl, rfl, fun k _ _ => rfl, fun _ => rfl, ?_, ?_, ?_⟩
    · intro k1 h
      simp at h
    · intro i k h
      simp at h
    · intro i k kn h
      simp at h
  | cons k1 rest ih =>
    intro t pt hpt hks hnd hptks
    have hptne : pt ≠ k1 := fun hc => hptks (hc ▸ List.mem_cons_self _ _)
    have hptrest : pt ∉ rest := fun hc => hptks (List.mem_cons_of_mem _ hc)
    obtain ⟨hk1rest, hndrest⟩ := List.nodup_cons.mp hnd
    have hk1 : k1 ∈ t.map Prod.fst := hks k1 (List.mem_cons_self _ _)
    set t1 := updAssoc t k1 (fun row => setPrevRow row pt) with ht1
    have hstep1 : updAssocAt t k1 (fun row => setPrevRow row pt) = some t1 :=
      updAssocAt_eq_some _ _ _ hk1
    have hkeys1 : t1.map Prod.fst = t.map Prod.fst := updAssoc_keys _ _ _
    have hpt1 : pt ∈ t1.map Prod.fst := by
      rw [hkeys1]
      exact hpt
    set t2 := updAssoc t1 pt (fun row => setNextRow row k1) with ht2
    have hstep2 : updAssocAt t1 pt (fun row => setNextRow row k1) = some t2 :=
      updAssocAt_eq_some _ _ _ hpt1
    have hkeys2 : t2.map Prod.fst = t.map Prod.fst := by
      rw [ht2, updAssoc_keys, hkeys1]
    obtain ⟨tf, hloop, hkeysf, hother, hnil2, hhead2, hlastc, hconsc⟩ :=
      ih t2 k1 (by rw [hkeys2]; exact hk1)
        (fun k hk => by rw [hkeys2]; exact hks k (List.mem_cons_of_mem _ hk))
        hndrest hk1rest
    have l2pt : dictLookup t2 pt = (dictLookup t pt).map (fun row => setNextRow row k1) := by
      rw [ht2, dictLookup_updAssoc_self, ht1, dictLookup_updAssoc_ne _ _ _ _ hptne]
    have l2k1 : dictLookup t2 k1 = (dictLookup t k1).map (fun row => setPrevRow row pt) := by
      rw [ht2, dictLookup_updAssoc_ne _ _ _ _ (fun hc => hptne hc.symm), ht1,
        dictLookup_updAssoc_self]
    have l2other : ∀ k, k ≠ pt → k ≠ k1 → dictLookup t2 k = dictLookup t k := by
      intro k hkpt hkk1
      rw [ht2, dictLookup_updAssoc_ne _ _ _ _ hkpt, ht1, dictLookup_updAssoc_ne _ _ _ _ hkk1]
    refine ⟨tf, ?_, by rw [hkeysf, hkeys2], ?_, ?_, ?_, ?_, ?_⟩
    · simp only [deltaLoop, hstep1, hstep2]
      exact hloop
    · intro k hkpt hkcons
      have hkk1 : k ≠ k1 := fun hc => hkcons (hc ▸ List.mem_cons_self _ _)
      have hkrest : k ∉ rest := fun hc => hkcons (List.mem_cons_of_mem _ hc)
      rw [hother k hkk1 hkrest, l2other k hkpt hkk1]
    · intro h
      exact absurd h (List.cons_ne_nil _ _)
    · intro k1' hk1'
      have hk1eq : k1' = k1 := by
        simp only [List.head?_cons, Option.some_inj] at hk1'
        exact hk1'.symm
      subst hk1eq
      rw [hother pt hptne hptrest, l2pt]
    · intro i k hget hnone
      cases i with
      | zero =>
        simp only [List.getElem?_cons_zero, Option.some_inj] at hget
        subst hget
        simp only [List.getElem?_cons_succ] at hnone
        have hrestnil : rest = [] := by
          cases rest with
          | nil => rfl
          | cons a l => simp at hnone
        subst hrestnil
        rw [hnil2 rfl, l2k1]
        simp
      | succ j =>
        simp only [List.getElem?_cons_succ] at hget hnone
        have hkmem : k ∈ rest := List.getElem?_mem hget
        have hkk1 : k ≠ k1 := fun hc => hk1rest (hc ▸ hkmem)
        have hkpt : k ≠ pt := fun hc => hptrest (hc ▸ hkmem)
        rw [hlastc j k hget hnone, l2other k hkpt hkk1]
        have harg : (if j = 0 then k1 else (rest[j - 1]?).getD 0)
            = (if j + 1 = 0 then pt else ((k1 :: rest)[j + 1 - 1]?).getD 0) := by
          cases j with
          | zero => simp
          | succ j2 => simp
        rw [harg]
    · intro i k kn hget hnext
      cases i with
      | zero =>
        simp only [List.getElem?_cons_zero, Option.some_inj] at hget
        subst hget
        simp only [List.getElem?_cons_succ] at hnext
        have hrest0 : rest.head? = some kn := by
          cases rest with
          | nil => simp at hnext
          | cons a l =>
            simp only [List.getElem?_cons_zero, Option.some_inj] at hnext
            simp [hnext]
        rw [hhead2 kn hrest0, l2k1]
        simp only [Option.map_map]
        rfl
      | succ j =>
        simp only [List.getElem?_cons_succ] at hget hnext
        have hkmem : k ∈ rest := List.getElem?_mem hget
        have hkk1 : k ≠ k1 := fun hc => hk1rest (hc ▸ hkmem)
        have hkpt : k ≠ pt := fun hc => hptrest (hc ▸ hkmem)
        rw [hconsc j k kn hget hnext, l2other k hkpt hkk1]
        have harg : (if j = 0 then k1 else (rest[j - 1]?).getD 0)
            = (if j + 1 = 0 then pt else ((k1 :: rest)[j + 1 - 1]?).getD 0) := by
          cases j with
          | zero => simp
          | succ j2 => simp
        rw [harg]

theorem rowAll_imp {row : ChannelMap} {P Q : Note → Prop}
    (h : RowAll row P) (himp : ∀ n, P n → Q n) : RowAll row Q :=
  fun ckv hc pkv hp => himp _ (h ckv hc pkv hp)

theorem rowAll_mapRowNotes (g : Note → Note) (row : ChannelMap) (P : Note → Prop) :
    RowAll (mapRowNotes g row) P ↔ RowAll row (fun n => P (g n)) := by
  unfold RowAll mapRowNotes
  constructor
  · intro h ckv hc pkv hp
    exact h (ckv.1, ckv.2.map (fun pkv => (pkv.1, g pkv.2))) (List.mem_map_of_mem _ hc)
      (pkv.1, g pkv.2) (List.mem_map_of_mem _ hp)
  · intro h ckv2 hc2 pkv2 hp2
    obtain ⟨ckv, hc, rfl⟩ := List.mem_map.mp hc2
    obtain ⟨pkv, hp, rfl⟩ := List.mem_map.mp hp2
    exact h ckv hc pkv hp

theorem update_delta_times_char (t : Table) (hne : t ≠ [])
    (hnd : (t.map Prod.fst).Nodup) :
    ∃ tf, update_delta_times t = some tf ∧
      tf.map Prod.fst = t.map Prod.fst ∧
      (∀ i k, (t.map Prod.fst)[i]? = some k → (t.map Prod.fst)[i + 1]? = none →
        dictLookup tf k = (dictLookup t k).map (fun row =>
          if i = 0 then setNextRow (setPrevRow row k) k
          else setPrevRow row (((t.map Prod.fst)[i - 1]?).getD 0))) ∧
      (∀ i k kn, (t.map Prod.fst)[i]? = some k → (t.map Prod.fst)[i + 1]? = some kn →
        dictLookup tf k = (dictLookup t k).map (fun row =>
          setNextRow (setPrevRow row
            (if i = 0 then k else ((t.map Prod.fst)[i - 1]?).getD 0)) kn)) := by
  rcases htt : t with _ | ⟨kv0, trest⟩
  · exact absurd htt hne
  subst htt
  obtain ⟨k0, row0⟩ := kv0
  have hkeyseq : (((k0, row0) :: trest).map Prod.fst) = k0 :: trest.map Prod.fst := rfl
  set krest := trest.map Prod.fst with hkrest
  have hk0mem : k0 ∈ ((k0, row0) :: trest).map Prod.fst := by
    rw [hkeyseq]
    exact List.mem_cons_self _ _
  obtain ⟨hk0rest, hndrest⟩ : k0 ∉ krest ∧ krest.Nodup := by
    rw [hkeyseq] at hnd
    exact List.nodup_cons.mp hnd
  set t0 : Table := (k0, row0) :: trest with ht0
  set t1 := updAssoc t0 k0 (fun row => setPrevRow row k0) with ht1
  have hstep1 : updAssocAt t0 k0 (fun row => setPrevRow row k0) = some t1 :=
    updAssocAt_eq_some _ _ _ hk0mem
  have hkeys1 : t1.map Prod.fst = t0.map Prod.fst := updAssoc_keys _ _ _
  set t2 := updAssoc t1 k0 (fun row => setNextRow row k0) with ht2
  have hstep2 : updAssocAt t1 k0 (fun row => setNextRow row k0) = some t2 :=
    updAssocAt_eq_some _ _ _ (by rw [hkeys1]; exact hk0mem)
  have hkeys2 : t2.map Prod.fst = t0.map Prod.fst := by
    rw [ht2, updAssoc_keys, hkeys1]
  have hrun : update_delta_times t0 = deltaLoop t2 krest k0 := by
    show update_delta_times ((k0, row0) :: trest) = _
    simp only [update_delta_times, first_tick, List.head?_cons, Option.map_some']
    show deltaLoop t0 (k0 :: krest) k0 = _
    simp only [deltaLoop, hstep1, hstep2]
  obtain ⟨tf, hloop, hkeysf, hother, hnil2, hhead2, hlastc, hconsc⟩ :=
    deltaLoop_char krest t2 k0 (by rw [hkeys2]; exact hk0mem)
      (fun k hk => by
        rw [hkeys2, hkeyseq]
        exact List.mem_cons_of_mem _ hk)
      hndrest hk0rest
  have l2k0 : dictLookup t2 k0
      = (dictLookup t0 k0).map (fun row => setNextRow (setPrevRow row k0) k0) := by
    rw [ht2, dictLookup_updAssoc_self, ht1, dictLookup_updAssoc_self, Option.map_map]
    rfl
  have l2other : ∀ k, k ≠ k0 → dictLookup t2 k = dictLookup t0 k := by
    intro k hk
    rw [ht2, dictLookup_updAssoc_ne _ _ _ _ hk, ht1, dictLookup_updAssoc_ne _ _ _ _ hk]
  refine ⟨tf, by rw [hrun]; exact hloop, by rw [hkeysf, hkeys2], ?_, ?_⟩
  · intro i k hget hnone
    rw [hkeyseq] at hget hnone
    cases i with
    | zero =>
      simp only [List.getElem?_cons_zero, Option.some_inj] at hget
      subst hget
      simp only [List.getElem?_cons_succ] at hnone
      have hrestnil : krest = [] := by
        cases hkr : krest with
        | nil => rfl
        | cons a l =>
          rw [hkr] at hnone
          simp at hnone
      rw [hnil2 hrestnil, l2k0]
      simp
    | succ j =>
      simp only [List.getElem?_cons_succ] at hget hnone
      have hkmem : k ∈ krest := List.getElem?_mem hget
      have hkk0 : k ≠ k0 := fun hc => hk0rest (hc ▸ hkmem)
      rw [hlastc j k hget hnone, l2other k hkk0]
      congr 1
      funext row
      rw [if_neg (Nat.succ_ne_zero j), Nat.add_sub_cancel, hkeyseq]
      cases j with
      | zero => simp
      | succ j2 => simp
  · intro i k kn hget hnext
    rw [hkeyseq] at hget hnext
    cases i with
    | zero =>
      simp only [List.getElem?_cons_zero, Option.some_inj] at hget
      subst hget
      simp only [List.getElem?_cons_succ] at hnext
      have hrest0 : krest.head? = some kn := by
        cases hkr : krest with
        | nil =>
          rw [hkr] at hnext
          simp at hnext
        | cons a l =>
          rw [hkr] at hnext
          simp only [List.getElem?_cons_zero, Option.some_inj] at hnext
          simp [hnext]
      rw [hhead2 kn hrest0, l2k0, Option.map_map]
      have hfun : ((fun row => setNextRow row kn)
            ∘ (fun row => setNextRow (setPrevRow row k0) k0))
          = fun row => setNextRow (setPrevRow row (if 0 = 0 then k0
              else ((((k0, row0) :: trest).map Prod.fst)[0 - 1]?).getD 0)) kn := by
        funext row
        simp only [Function.comp_apply, setNextRow_setNextRow]
        simp
      rw [hfun]
    | succ j =>
      simp only [List.getElem?_cons_succ] at hget hnext
      have hkmem : k ∈ krest := List.getElem?_mem hget
      have hkk0 : k ≠ k0 := fun hc => hk0rest (hc ▸ hkmem)
      rw [hconsc j k kn hget hnext, l2other k hkk0]
      congr 1
      funext row
      rw [if_neg (Nat.succ_ne_zero j), Nat.add_sub_cancel, hkeyseq]
      cases j with
      | zero => simp
      | succ j2 => simp

/-- Claim C9: on a sorted nonempty table, update_delta_times completes
without any lookup failure, even when a channel present at one
time-position is absent at the preceding one: the second inner pass only
walks channels stored at the previous time-position, so no missing-channel
read ever happens. -/
theorem update_delta_times_total (t : Table) (hne : t ≠ [])
    (hsorted : List.Pairwise (fun a b : Nat => a < b) (t.map Prod.fst)) :
    ∃ tf, update_delta_times t = some tf ∧ tf.map Prod.fst = t.map Prod.fst := by
  have hnd : (t.map Prod.fst).Nodup := hsorted.imp (fun h => Nat.ne_of_lt h)
  obtain ⟨tf, h1, h2, -, -⟩ := update_delta_times_char t hne hnd
  exact ⟨tf, h1, h2⟩

/-- Witness for C9: a table whose second time-position uses a channel that
does not occur at the first one. -/
theorem update_delta_times_total_witness :
    ∃ tf, update_delta_times
        [(0, [(0, [(50, ⟨0, 0, 1, 0, 0, 0, 50, 10⟩)])]),
         (10, [(1, [(51, ⟨10, 0, 1, 0, 0, 1, 51, 10⟩)])])] = some tf ∧
      tf.map Prod.fst =
        ([(0, [(0, [(50, ⟨0, 0, 1, 0, 0, 0, 50, 10⟩)])]),
          (10, [(1, [(51, ⟨10, 0, 1, 0, 0, 1, 51, 10⟩)])])] : Table).map Prod.fst :=
  update_delta_times_total
    [(0, [(0, [(50, ⟨0, 0, 1, 0, 0, 0, 50, 10⟩)])]),
     (10, [(1, [(51, ⟨10, 0, 1, 0, 0, 1, 51, 10⟩)])])]
    (by decide) (by decide)

/-- Claim C1: on a nonempty, key-sorted, well-keyed table of freshly built
notes, update_delta_times annotates every note at the first time-position
with previous gap 0, every note at a later time-position with previous gap
equal to that position minus the immediately preceding position, every note
at a non-final time-position with next gap equal to the following position
minus its own, and every note at the last time-position keeps next gap 0. -/
theorem update_delta_times_annotates (t : Table) (hne : t ≠ [])
    (hwf : ∀ kv ∈ t, RowAll kv.2 (fun n => n.timeline_tick = kv.1))
    (hzero : ∀ kv ∈ t, RowAll kv.2 (fun n => n.next_delta_ticks = 0))
    (hsorted : List.Pairwise (fun a b : Nat => a < b) (t.map Prod.fst)) :
    ∃ tf, update_delta_times t = some tf ∧
      tf.map Prod.fst = t.map Prod.fst ∧
      (∀ k0 : Nat, (t.map Prod.fst)[0]? = some k0 →
        ∀ row, dictLookup tf k0 = some row →
          RowAll row (fun n => n.previous_delta_ticks = 0)) ∧
      (∀ i tp tc : Nat, (t.map Prod.fst)[i]? = some tp → (t.map Prod.fst)[i + 1]? = some tc →
        (∀ row, dictLookup tf tc = some row →
          RowAll row (fun n => n.previous_delta_ticks = (tc : Int) - (tp : Int))) ∧
        (∀ row, dictLookup tf tp = some row →
          RowAll row (fun n => n.next_delta_ticks = (tc : Int) - (tp : Int)))) ∧
      (∀ kl : Nat, (t.map Prod.fst).getLast? = some kl →
        ∀ row, dictLookup tf kl = some row →
          RowAll row (fun n => n.next_delta_ticks = 0)) := by
  have hnd : (t.map Prod.fst).Nodup := hsorted.imp (fun h => Nat.ne_of_lt h)
  obtain ⟨tf, hupd, hkeys, hlast, hcons⟩ := update_delta_times_char t hne hnd
  refine ⟨tf, hupd, hkeys, ?_, ?_, ?_⟩
  · intro k0 hk0 row hrow
    rcases hsucc : (t.map Prod.fst)[1]? with _ | kn
    · rw [hlast 0 k0 hk0 hsucc] at hrow
      obtain ⟨orig, horig, hF⟩ := Option.map_eq_some'.mp hrow
      have hmem := dictLookup_mem horig
      rw [if_pos rfl] at hF
      rw [← hF]
      unfold setNextRow setPrevRow
      rw [rowAll_mapRowNotes, rowAll_mapRowNotes]
      exact rowAll_imp (hwf (k0, orig) hmem) (fun n h => by simp [h])
    · rw [hcons 0 k0 kn hk0 hsucc] at hrow
      obtain ⟨orig, horig, hF⟩ := Option.map_eq_some'.mp hrow
      have hmem := dictLookup_mem horig
      rw [if_pos rfl] at hF
      rw [← hF]
      unfold setNextRow setPrevRow
      rw [rowAll_mapRowNotes, rowAll_mapRowNotes]
      exact rowAll_imp (hwf (k0, orig) hmem) (fun n h => by simp [h])
  · intro i tp tc hgtp hgtc
    have hne1 : ¬(i + 1 = 0) := Nat.succ_ne_zero i
    have hgetD : ((t.map Prod.fst)[i + 1 - 1]?).getD 0 = tp := by
      rw [Nat.add_sub_cancel, hgtp]
      rfl
    constructor
    · intro row hrow
      rcases hsucc2 : (t.map Prod.fst)[i + 1 + 1]? with _ | kn2
      · rw [hlast (i + 1) tc hgtc hsucc2] at hrow
        obtain ⟨orig, horig, hF⟩ := Option.map_eq_some'.mp hrow
        have hmem := dictLookup_mem horig
        rw [if_neg hne1, hgetD] at hF
        rw [← hF]
        unfold setPrevRow
        rw [rowAll_mapRowNotes]
        exact rowAll_imp (hwf (tc, orig) hmem) (fun n h => by simp [h])
      · rw [hcons (i + 1) tc kn2 hgtc hsucc2] at hrow
        obtain ⟨orig, horig, hF⟩ := Option.map_eq_some'.mp hrow
        have hmem := dictLookup_mem horig
        rw [if_neg hne1, hgetD] at hF
        rw [← hF]
        unfold setNextRow setPrevRow
        rw [rowAll_mapRowNotes, rowAll_mapRowNotes]
        exact rowAll_imp (hwf (tc, orig) hmem) (fun n h => by simp [h])
    · intro row hrow
      rw [hcons i tp tc hgtp hgtc] at hrow
      obtain ⟨orig, horig, hF⟩ := Option.map_eq_some'.mp hrow
      have hmem := dictLookup_mem horig
      rw [← hF]
      unfold setNextRow setPrevRow
      rw [rowAll_mapRowNotes, rowAll_mapRowNotes]
      exact rowAll_imp (hwf (tp, orig) hmem) (fun n h => by simp [h])
  · intro kl hkl row hrow
    have hmapne : t.map Prod.fst ≠ [] := by
      intro hc
      exact hne (List.map_eq_nil_iff.mp hc)
    have hpos : 0 < (t.map Prod.fst).length := List.length_pos.mpr hmapne
    have hget : (t.map Prod.fst)[(t.map Prod.fst).length - 1]? = some kl := by
      rw [← List.getLast?_eq_getElem?]
      exact hkl
    have hnone : (t.map Prod.fst)[(t.map Prod.fst).length - 1 + 1]? = none := by
      rw [Nat.sub_add_cancel hpos]
      exact List.getElem?_eq_none (le_refl _)
    rw [hlast ((t.map Prod.fst).length - 1) kl hget hnone] at hrow
    obtain ⟨orig, horig, hF⟩ := Option.map_eq_some'.mp hrow
    have hmem := dictLookup_mem horig
    by_cases hi : (t.map Prod.fst).length - 1 = 0
    · rw [if_pos hi] at hF
      rw [← hF]
      unfold setNextRow setPrevRow
      rw [rowAll_mapRowNotes, rowAll_mapRowNotes]
      exact rowAll_imp (hwf (kl, orig) hmem) (fun n h => by simp [h])
    · rw [if_neg hi] at hF
      rw [← hF]
      unfold setPrevRow
      rw [rowAll_mapRowNotes]
      exact rowAll_imp (hzero (kl, orig) hmem) (fun n h => by simp [h])


/-- Witness for C1 on a concrete sorted three-position table of fresh
notes. -/
theorem update_delta_times_annotates_witness :
    ∃ tf, update_delta_times
        ([(0, [(0, [(60, ⟨0, 0, 4, 0, 0, 0, 60, 100⟩)])]),
        (4, [(0, [(64, ⟨4, 0, 2, 0, 0, 0, 64, 90⟩)])]),
        (10, [(1, [(70, ⟨10, 0, 1, 0, 0, 1, 70, 80⟩)])])] : Table) = some tf ∧
      tf.map Prod.fst = ([(0, [(0, [(60, ⟨0, 0, 4, 0, 0, 0, 60, 100⟩)])]),
        (4, [(0, [(64, ⟨4, 0, 2, 0, 0, 0, 64, 90⟩)])]),
        (10, [(1, [(70, ⟨10, 0, 1, 0, 0, 1, 70, 80⟩)])])] : Table).map Prod.fst ∧
      (∀ k0 : Nat, (([(0, [(0, [(60, ⟨0, 0, 4, 0, 0, 0, 60, 100⟩)])]),
        (4, [(0, [(64, ⟨4, 0, 2, 0, 0, 0, 64, 90⟩)])]),
        (10, [(1, [(70, ⟨10, 0, 1, 0, 0, 1, 70, 80⟩)])])] : Table).map Prod.fst)[0]? = some k0 →
        ∀ row, dictLookup tf k0 = some row →
          RowAll row (fun n => n.previous_delta_ticks = 0)) ∧
      (∀ i tp tc : Nat, (([(0, [(0, [(60, ⟨0, 0, 4, 0, 0, 0, 60, 100⟩)])]),
        (4, [(0, [(64, ⟨4, 0, 2, 0, 0, 0, 64, 90⟩)])]),
        (10, [(1, [(70, ⟨10, 0, 1, 0, 0, 1, 70, 80⟩)])])] : Table).map Prod.fst)[i]? = some tp →
          (([(0, [(0, [(60, ⟨0, 0, 4, 0, 0, 0, 60, 100⟩)])]),
        (4, [(0, [(64, ⟨4, 0, 2, 0, 0, 0, 64, 90⟩)])]),
        (10, [(1, [(70, ⟨10, 0, 1, 0, 0, 1, 70, 80⟩)])])] : Table).map Prod.fst)[i + 1]? = some tc →
        (∀ row, dictLookup tf tc = some row →
          RowAll row (fun n => n.previous_delta_ticks = (tc : Int) - (tp : Int))) ∧
        (∀ row, dictLookup tf tp = some row →
          RowAll row (fun n => n.next_delta_ticks = (tc : Int) - (tp : Int)))) ∧
      (∀ kl : Nat, (([(0, [(0, [(60, ⟨0, 0, 4, 0, 0, 0, 60, 100⟩)])]),
        (4, [(0, [(64, ⟨4, 0, 2, 0, 0, 0, 64, 90⟩)])]),
        (10, [(1, [(70, ⟨10, 0, 1, 0, 0, 1, 70, 80⟩)])])] : Table).map Prod.fst).getLast? = some kl →
        ∀ row, dictLookup tf kl = some row →
          RowAll row (fun n => n.next_delta_ticks = 0)) :=
  update_delta_times_annotates
    ([(0, [(0, [(60, ⟨0, 0, 4, 0, 0, 0, 60, 100⟩)])]),
        (4, [(0, [(64, ⟨4, 0, 2, 0, 0, 0, 64, 90⟩)])]),
        (10, [(1, [(70, ⟨10, 0, 1, 0, 0, 1, 70, 80⟩)])])] : Table)
    (by decide) (by simp only [RowAll]; decide) (by simp only [RowAll]; decide) (by decide)

/-! Characterization of the transcript builder. -/

theorem soundEvent_make_perm (notes : List Note) :
    (SoundEvent.make notes).notes.Perm notes :=
  List.perm_insertionSort _ notes

theorem initTracks_keys (channels : List Nat) :
    (channels.map (fun ch => (ch, ([] : List SoundEvent)))).map Prod.fst = channels := by
  induction channels with
  | nil => rfl
  | cons a l ih => simp only [List.map_cons, ih]

theorem dictLookup_init (channels : List Nat) (c : Nat) :
    dictLookup (channels.map (fun ch => (ch, ([] : List SoundEvent)))) c
      = if c ∈ channels then some [] else none := by
  induction channels with
  | nil => simp [dictLookup]
  | cons a l ih =>
    simp only [List.map_cons]
    rw [dictLookup_cons]
    by_cases h : a = c
    · simp [h]
    · rw [if_neg h, ih]
      have h3 : ¬(c = a) := fun hc => h hc.symm
      by_cases h2 : c ∈ l
      · simp [h2, List.mem_cons]
      · simp [h2, List.mem_cons, h3]

theorem filterMap_key_eq (row : ChannelMap) (c : Nat)
    (hnd : (row.map Prod.fst).Nodup) :
    row.filterMap (fun ckv =>
        if ckv.1 = c then some (SoundEvent.make (bucketNotes ckv.2)) else none)
      = ((dictLookup row c).map (fun pm => SoundEvent.make (bucketNotes pm))).toList := by
  induction row with
  | nil => simp [dictLookup]
  | cons ckv rest ih =>
    obtain ⟨k1, v1⟩ := ckv
    obtain ⟨hk1, hndrest⟩ : k1 ∉ rest.map Prod.fst ∧ (rest.map Prod.fst).Nodup := by
      simpa using List.nodup_cons.mp hnd
    rw [List.filterMap_cons, dictLookup_cons]
    by_cases h : k1 = c
    · subst h
      have hrest : rest.filterMap (fun ckv =>
          if ckv.1 = k1 then some (SoundEvent.make (bucketNotes ckv.2)) else none) = [] := by
        rw [List.filterMap_eq_nil_iff]
        intro a ha
        rw [if_neg]
        intro hc
        exact hk1 (hc ▸ List.mem_map_of_mem Prod.fst ha)
      simp [hrest]
    · simp only [if_neg h]
      rw [ih hndrest]

theorem buildRow_char (row : ChannelMap) :
    ∀ tr0 : Tracks, (∀ ckv ∈ row, ckv.1 ∈ tr0.map Prod.fst) →
    ∃ tr, buildRow row tr0 = some tr ∧
      tr.map Prod.fst = tr0.map Prod.fst ∧
      ∀ c, dictLookup tr c = (dictLookup tr0 c).map (fun es =>
        es ++ row.filterMap (fun ckv =>
          if ckv.1 = c then some (SoundEvent.make (bucketNotes ckv.2)) else none)) := by
  induction row with
  | nil =>
    intro tr0 _
    refine ⟨tr0, rfl, rfl, ?_⟩
    intro c
    cases h : dictLookup tr0 c <;> simp
  | cons ckv rest ih =>
    intro tr0 hmem
    have hc1 : ckv.1 ∈ tr0.map Prod.fst := hmem ckv (List.mem_cons_self _ _)
    set tr1 := updAssoc tr0 ckv.1
        (fun es => es ++ [SoundEvent.make (bucketNotes ckv.2)]) with htr1
    have hstep : appendTrack tr0 ckv.1 (SoundEvent.make (bucketNotes ckv.2)) = some tr1 :=
      updAssocAt_eq_some _ _ _ hc1
    have hkeys1 : tr1.map Prod.fst = tr0.map Prod.fst := updAssoc_keys _ _ _
    obtain ⟨tr, hrun, hkeys, hlook⟩ := ih tr1 (fun ckv2 h2 => by
      rw [hkeys1]
      exact hmem ckv2 (List.mem_cons_of_mem _ h2))
    refine ⟨tr, ?_, by rw [hkeys, hkeys1], ?_⟩
    · show buildRow (ckv :: rest) tr0 = some tr
      simp only [buildRow, hstep]
      exact hrun
    · intro c
      rw [hlook c, List.filterMap_cons]
      by_cases h : ckv.1 = c
      · subst h
        rw [htr1, dictLookup_updAssoc_self, Option.map_map]
        simp only [if_pos rfl]
        cases hx : dictLookup tr0 ckv.1 <;> simp
      · rw [htr1, dictLookup_updAssoc_ne _ _ _ _ (fun hc => h hc.symm)]
        simp only [if_neg h]

theorem buildLoop_char (t : Table) :
    ∀ tr0 : Tracks,
    (∀ kv ∈ t, ∀ ckv ∈ kv.2, ckv.1 ∈ tr0.map Prod.fst) →
    (∀ kv ∈ t, ((kv.2).map Prod.fst).Nodup) →
    ∃ tr, buildLoop t tr0 = some tr ∧
      tr.map Prod.fst = tr0.map Prod.fst ∧
      ∀ c, dictLookup tr c = (dictLookup tr0 c).map (fun es =>
        es ++ t.filterMap (fun kv => (dictLookup kv.2 c).map (fun pm =>
          SoundEvent.make (bucketNotes pm)))) := by
  induction t with
  | nil =>
    intro tr0 _ _
    refine ⟨tr0, rfl, rfl, ?_⟩
    intro c
    cases h : dictLookup tr0 c <;> simp
  | cons kv trest ih =>
    intro tr0 hmem hnd
    obtain ⟨tr1, hrow, hkeys1, hlook1⟩ :=
      buildRow_char kv.2 tr0 (fun ckv h => hmem kv (List.mem_cons_self _ _) ckv h)
    obtain ⟨tr, hrun, hkeys, hlook⟩ := ih tr1
      (fun kv2 h2 ckv2 hc2 => by
        rw [hkeys1]
        exact hmem kv2 (List.mem_cons_of_mem _ h2) ckv2 hc2)
      (fun kv2 h2 => hnd kv2 (List.mem_cons_of_mem _ h2))
    refine ⟨tr, ?_, by rw [hkeys, hkeys1], ?_⟩
    · show buildLoop (kv :: trest) tr0 = some tr
      simp only [buildLoop, hrow]
      exact hrun
    · intro c
      rw [hlook c, hlook1 c, Option.map_map, List.filterMap_cons]
      have hfm := filterMap_key_eq kv.2 c (hnd kv (List.mem_cons_self _ _))
      cases hx : dictLookup tr0 c <;> cases hy : dictLookup kv.2 c <;>
        simp [hfm, hy]

/-- Claim C3: building the transcript from a sorted, well-keyed table
yields exactly one ordered sequence per channel of the channel list; each
channel sequence is exactly the list of one SoundEvent per
(time-position, channel) bucket holding that channel, in table order, so
the contributing time-positions are strictly ascending; and each such
SoundEvent holds exactly the notes of its bucket (all carrying the bucket
time-position). -/
theorem musical_transcript_build_groups (channels : List Nat) (t : Table)
    (hch : ∀ kv ∈ t, ∀ ckv ∈ kv.2, ckv.1 ∈ channels)
    (hrows : ∀ kv ∈ t, ((kv.2).map Prod.fst).Nodup)
    (hwf : ∀ kv ∈ t, RowAll kv.2 (fun n => n.timeline_tick = kv.1))
    (hsorted : List.Pairwise (fun a b : Nat => a < b) (t.map Prod.fst)) :
    ∃ tracks, buildTracks channels t = some tracks ∧
      tracks.map Prod.fst = channels ∧
      (∀ c ∈ channels,
        dictLookup tracks c = some (t.filterMap (fun kv =>
          (dictLookup kv.2 c).map (fun pm => SoundEvent.make (bucketNotes pm)))) ∧
        List.Pairwise (fun a b : Nat => a < b) (t.filterMap (fun kv =>
          (dictLookup kv.2 c).map (fun _ => kv.1)))) ∧
      (∀ kv ∈ t, ∀ ckv ∈ kv.2,
        (SoundEvent.make (bucketNotes ckv.2)).notes.Perm (bucketNotes ckv.2) ∧
        ∀ n ∈ (SoundEvent.make (bucketNotes ckv.2)).notes, n.timeline_tick = kv.1) := by
  obtain ⟨tracks, hrun, hkeys, hlook⟩ := buildLoop_char t
    (channels.map (fun ch => (ch, ([] : List SoundEvent))))
    (fun kv hkv ckv hckv => by
      rw [initTracks_keys]
      exact hch kv hkv ckv hckv)
    hrows
  refine ⟨tracks, hrun, by rw [hkeys, initTracks_keys], ?_, ?_⟩
  · intro c hc
    constructor
    · rw [hlook c, dictLookup_init, if_pos hc]
      simp
    · have hp : List.Pairwise (fun a b : Nat × ChannelMap => a.1 < b.1) t :=
        (List.pairwise_map).mp hsorted
      refine hp.filterMap _ ?_
      intro x y hxy b hb b2 hb2
      have hbx : b = x.1 := by
        rcases Option.map_eq_some'.mp (Option.mem_def.mp hb) with ⟨pm, -, hpm⟩
        exact hpm.symm
      have hby : b2 = y.1 := by
        rcases Option.map_eq_some'.mp (Option.mem_def.mp hb2) with ⟨pm, -, hpm⟩
        exact hpm.symm
      rw [hbx, hby]
      exact hxy
  · intro kv hkv ckv hckv
    refine ⟨soundEvent_make_perm _, ?_⟩
    intro n hn
    have hn2 : n ∈ bucketNotes ckv.2 := (soundEvent_make_perm _).mem_iff.mp hn
    unfold bucketNotes at hn2
    obtain ⟨pkv, hpkv, rfl⟩ := List.mem_map.mp hn2
    exact hwf kv hkv ckv hckv pkv hpkv


/-- Witness for C3 on a concrete two-position table with a two-note chord
bucket and two channels. -/
theorem musical_transcript_build_groups_witness :
    ∃ tracks, buildTracks [0, 1]
        ([(0, [(0, [(60, ⟨0, 0, 4, 0, 4, 0, 60, 100⟩), (64, ⟨0, 0, 4, 0, 4, 0, 64, 100⟩)])]),
        (4, [(0, [(67, ⟨4, 0, 2, 0, 0, 0, 67, 100⟩)]), (1, [(70, ⟨4, 0, 1, 0, 0, 1, 70, 80⟩)])])] : Table) = some tracks ∧
      tracks.map Prod.fst = [0, 1] ∧
      (∀ c ∈ [0, 1],
        dictLookup tracks c = some (([(0, [(0, [(60, ⟨0, 0, 4, 0, 4, 0, 60, 100⟩), (64, ⟨0, 0, 4, 0, 4, 0, 64, 100⟩)])]),
        (4, [(0, [(67, ⟨4, 0, 2, 0, 0, 0, 67, 100⟩)]), (1, [(70, ⟨4, 0, 1, 0, 0, 1, 70, 80⟩)])])] : Table).filterMap (fun kv =>
          (dictLookup kv.2 c).map (fun pm => SoundEvent.make (bucketNotes pm)))) ∧
        List.Pairwise (fun a b : Nat => a < b) (([(0, [(0, [(60, ⟨0, 0, 4, 0, 4, 0, 60, 100⟩), (64, ⟨0, 0, 4, 0, 4, 0, 64, 100⟩)])]),
        (4, [(0, [(67, ⟨4, 0, 2, 0, 0, 0, 67, 100⟩)]), (1, [(70, ⟨4, 0, 1, 0, 0, 1, 70, 80⟩)])])] : Table).filterMap (fun kv =>
          (dictLookup kv.2 c).map (fun _ => kv.1)))) ∧
      (∀ kv ∈ ([(0, [(0, [(60, ⟨0, 0, 4, 0, 4, 0, 60, 100⟩), (64, ⟨0, 0, 4, 0, 4, 0, 64, 100⟩)])]),
        (4, [(0, [(67, ⟨4, 0, 2, 0, 0, 0, 67, 100⟩)]), (1, [(70, ⟨4, 0, 1, 0, 0, 1, 70, 80⟩)])])] : Table), ∀ ckv ∈ kv.2,
        (SoundEvent.make (bucketNotes ckv.2)).notes.Perm (bucketNotes ckv.2) ∧
        ∀ n ∈ (SoundEvent.make (bucketNotes ckv.2)).notes, n.timeline_tick = kv.1) :=
  musical_transcript_build_groups [0, 1]
    ([(0, [(0, [(60, ⟨0, 0, 4, 0, 4, 0, 60, 100⟩), (64, ⟨0, 0, 4, 0, 4, 0, 64, 100⟩)])]),
        (4, [(0, [(67, ⟨4, 0, 2, 0, 0, 0, 67, 100⟩)]), (1, [(70, ⟨4, 0, 1, 0, 0, 1, 70, 80⟩)])])] : Table)
    (by decide) (by decide) (by simp only [RowAll]; decide) (by decide)
